import Mathlib

/-!
Verification development for the quizx core: GF(2) linear algebra
(`linalg.rs`), exact cyclotomic scalars (`scalar.rs`) and tensor
construction (`tensor.rs`), shallowly embedded in Lean.

Machine integers (`u32`, `usize`) are modelled as `ℕ` with explicit `% 2`
where the source reduces mod 2; `Rational` is modelled as `ℚ`;
`Complex<f64>` is modelled as `ℂ` (exact real-arithmetic semantics).
Fallible code paths (Rust panics such as unsigned-integer underflow)
are modelled by `Option`, with `none` standing for a panic.
-/

namespace Quizx

/-! ## `linalg.rs`: matrices over F2

A `Mat2` is a vector of rows of `u32` entries (`d: Vec<Vec<u32>>`).
Out-of-range accesses are modelled with default values (`getD`); every
use below stays in bounds, matching the panicking Rust indexing.
-/

abbrev Mat := List (List ℕ)

namespace Mat2

/-- `Mat2::num_rows`: `self.d.len()`. -/
def num_rows (m : Mat) : ℕ := m.length

/-- `Mat2::num_cols`: `if self.d.len() > 0 { self.d[0].len() } else { 0 }`. -/
def num_cols (m : Mat) : ℕ := (m.getD 0 []).length

/-- One entry of the matrix, `self.d[r][c]`. -/
def entry (m : Mat) (r c : ℕ) : ℕ := (m.getD r []).getD c 0

/-- `Mat2::build`: place a 1 wherever `f i j` is true. -/
def build (rows cols : ℕ) (f : ℕ → ℕ → Bool) : Mat :=
  (List.range rows).map fun x => (List.range cols).map fun y => if f x y then 1 else 0

/-- `Mat2::zeros`. -/
def zeros (rows cols : ℕ) : Mat := build rows cols (fun _ _ => false)

/-- `Mat2::ones`. -/
def ones (rows cols : ℕ) : Mat := build rows cols (fun _ _ => true)

/-- `Mat2::id`: the identity matrix of a given size. -/
def idm (dim : ℕ) : Mat := build dim dim (fun x y => x == y)

/-- `RowColOps::row_add` for `Mat2`: add row `r0` into row `r1`, mod 2.
The source writes `d[r1][i] = (d[r0][i] + d[r1][i]) % 2` entry by entry;
each step reads index `i` before writing it, so reading from the original
matrix is equivalent (also when `r0 = r1`). -/
def row_add (m : Mat) (r0 r1 : ℕ) : Mat :=
  m.set r1 ((List.range (num_cols m)).map fun i => (entry m r0 i + entry m r1 i) % 2)

/-- `RowColOps::row_swap` for `Mat2`: `self.d.swap(r0, r1)`. -/
def row_swap (m : Mat) (r0 r1 : ℕ) : Mat :=
  (m.set r0 (m.getD r1 [])).set r1 (m.getD r0 [])

/-- `Mul for Mat2`: GF(2) matrix product (dimensions assumed to match,
the source panics otherwise). -/
def mat_mul (a b : Mat) : Mat :=
  (List.range (num_rows a)).map fun x =>
    (List.range (num_cols b)).map fun y =>
      ((List.range (num_cols a)).map fun i => entry a x i * entry b i y).sum % 2

/-- `Mat2::transpose`. -/
def transpose (m : Mat) : Mat :=
  build (num_cols m) (num_rows m) (fun i j => entry m j i == 1)

/-- `self.d[r][i0..i1]`: the chunk of row `r` between columns `i0` and `i1`. -/
def slice (l : List ℕ) (i0 i1 : ℕ) : List ℕ := (l.drop i0).take (i1 - i0)

/-- State of `gauss_helper`: the matrix, the row-operation recorder `x`
(the unit recorder is modelled by the empty matrix, on which every row
operation is a no-op), the pivot-row counter and the pivot columns found.
The column recorder `y`, instantiated with the unit no-op recorder in
every caller in the source, is omitted. -/
structure GaussSt where
  m : Mat
  x : Mat
  pr : ℕ
  pcs : List ℕ

/-- The duplicate-chunk elimination loop shared by both passes of
`gauss_helper`: scan the rows listed in `rs` (in that order); skip rows
whose chunk `[i0..i1)` is all zero; on a repeated chunk, add the first
row that had it (the `FxHashMap` is modelled by an association list,
only ever used through `get`/`insert`). -/
def chunk_rows (i0 i1 : ℕ) (rs : List ℕ) (mx : Mat × Mat) : Mat × Mat :=
  (rs.foldl (fun (s : (Mat × Mat) × List (List ℕ × ℕ)) r =>
      let ch := slice (s.1.1.getD r []) i0 i1
      if ch.all (· == 0) then s
      else match s.2.lookup ch with
        | some r1 => ((row_add s.1.1 r1 r, row_add s.1.2 r1 r), s.2)
        | none => (s.1, (ch, r) :: s.2)) (mx, [])).1

/-- The inner clearing loop of the first pass: for `r1` in
`pivot_row+1..rows`, clear column `p` using the pivot row. -/
def clear_below (p rows : ℕ) (st : GaussSt) : GaussSt :=
  (List.range' (st.pr + 1) (rows - (st.pr + 1))).foldl
    (fun s r1 =>
      if entry s.m r1 p ≠ 0 then
        { s with m := row_add s.m s.pr r1, x := row_add s.x s.pr r1 }
      else s) st

/-- One column `p` of the first pass of `gauss_helper`: find the first
row at or below the pivot row with a 1 in column `p`; if found, add it
into the pivot row (when distinct), clear the column below, record the
pivot column and advance the pivot row. -/
def pivot_col_step (rows : ℕ) (st : GaussSt) (p : ℕ) : GaussSt :=
  match (List.range' st.pr (rows - st.pr)).find? (fun r0 => entry st.m r0 p != 0) with
  | none => st
  | some r0 =>
    let st1 := if r0 ≠ st.pr then
        { st with m := row_add st.m r0 st.pr, x := row_add st.x r0 st.pr }
      else st
    let st2 := clear_below p rows st1
    { st2 with pr := st2.pr + 1, pcs := st2.pcs ++ [p] }

/-- One block (`sec`) of the left-to-right pass of `gauss_helper`. -/
def block_step (blocksize cols rows : ℕ) (st : GaussSt) (sec : ℕ) : GaussSt :=
  let i0 := sec * blocksize
  let i1 := min cols ((sec + 1) * blocksize)
  let mx := chunk_rows i0 i1 (List.range' st.pr (rows - st.pr)) (st.m, st.x)
  let st1 : GaussSt := { st with m := mx.1, x := mx.2 }
  (List.range' i0 (i1 - i0)).foldl (pivot_col_step rows) st1

/-- `num_blocks` in `gauss_helper`. -/
def num_blocks (cols blocksize : ℕ) : ℕ :=
  if cols % blocksize == 0 then cols / blocksize else cols / blocksize + 1

/-- The left-to-right (echelon-form) pass of `gauss_helper`. -/
def first_pass (blocksize : ℕ) (m x : Mat) : GaussSt :=
  let rows := num_rows m
  let cols := num_cols m
  (List.range (num_blocks cols blocksize)).foldl
    (block_step blocksize cols rows) ⟨m, x, 0, []⟩

/-- The `loop { ... pivot_cols1.pop() ... }` of the full-reduce pass.
`Vec::pop` takes elements from the back, so the caller passes the pivot
columns reversed and this function pops from the front.  Note that a
popped column lying outside the current block `[i0, i1)` is discarded
when the loop breaks, exactly as in the source. -/
def pop_loop (i0 i1 : ℕ) : List ℕ → Mat × Mat × ℕ → List ℕ × (Mat × Mat × ℕ)
  | [], s => ([], s)
  | pcol :: rest, (m, x, pr) =>
    if i0 > pcol ∨ pcol ≥ i1 then (rest, (m, x, pr))
    else
      let mx := (List.range pr).foldl
        (fun (t : Mat × Mat) r =>
          if entry t.1 r pcol ≠ 0 then (row_add t.1 pr r, row_add t.2 pr r) else t)
        (m, x)
      let pr' := if pr > 0 then pr - 1 else pr
      pop_loop i0 i1 rest (mx.1, mx.2, pr')

/-- One block (`sec`, taken in reverse order) of the full-reduce pass. -/
def full_block_step (blocksize cols : ℕ) (s : Mat × Mat × ℕ × List ℕ) (sec : ℕ) :
    Mat × Mat × ℕ × List ℕ :=
  let i0 := sec * blocksize
  let i1 := min cols ((sec + 1) * blocksize)
  let mx := chunk_rows i0 i1 (List.range (s.2.2.1 + 1)).reverse (s.1, s.2.1)
  let out := pop_loop i0 i1 s.2.2.2 (mx.1, mx.2, s.2.2.1)
  (out.2.1, out.2.2.1, out.2.2.2, out.1)

/-- `Mat2::gauss_helper`.  Returns `none` when the source panics: with
`full_reduce` set and no pivot found, `pivot_row -= 1` underflows the
unsigned counter.  Otherwise returns the reduced matrix, the recorder
`x` and the number of pivots found (the return value `rank`). -/
def gauss_helper (full_reduce : Bool) (blocksize : ℕ) (m x : Mat) :
    Option (Mat × Mat × ℕ) :=
  let cols := num_cols m
  let st := first_pass blocksize m x
  let rank := st.pr
  if full_reduce then
    if rank = 0 then none
    else
      let init : Mat × Mat × ℕ × List ℕ := (st.m, st.x, rank - 1, st.pcs.reverse)
      let out := ((List.range (num_blocks cols blocksize)).reverse).foldl
        (full_block_step blocksize cols) init
      some (out.1, out.2.1, rank)
  else some (st.m, st.x, rank)

/-- `Mat2::gauss`: blocksize 3, unit recorders; returns the rank, or
`none` when `gauss_helper` panics. -/
def gauss (m : Mat) (full_reduce : Bool) : Option ℕ :=
  (gauss_helper full_reduce 3 m []).map (·.2.2)

/-- The matrix left over by `gauss` (for inspecting the reduced form). -/
def gauss_mat (m : Mat) (full_reduce : Bool) : Option Mat :=
  (gauss_helper full_reduce 3 m []).map (·.1)

/-- `Mat2::rank`: run `gauss(false)` on a copy (never panics). -/
def rank (m : Mat) : ℕ := (gauss m false).getD 0

/-- `Mat2::inverse`.  The outer `Option` models panic-freedom (`none` =
the call panics inside `gauss_helper`); the inner `Option` is the Rust
return value. -/
def inverse (m : Mat) : Option (Option Mat) :=
  if num_rows m ≠ num_cols m then some none
  else
    match gauss_helper true 3 m (idm (num_rows m)) with
    | none => none
    | some (_, inv, rk) =>
      some (if rk < num_rows m then none else some inv)

end Mat2

/-! ## `scalar.rs`: exact and approximate complex scalars

`Scalar<T>` is either `Exact(T)` — a list of `Rational` coefficients over
a cyclotomic field — or `Float(Complex<f64>)`.  The coefficient storage
trait `Coeffs` is modelled by a structure bundling the three operations
the generic code uses (`new`, `zero`, `one`; `len` is list length and
indexing is list indexing for every implementation).  `f64` arithmetic
is idealised as exact real/complex arithmetic. -/

/-- In-place update of one list entry, `cs[k] = f(cs[k])` (out of range:
no-op; all uses below are in bounds, as in the panicking Rust indexing). -/
def upd : List ℚ → ℕ → (ℚ → ℚ) → List ℚ
  | [], _, _ => []
  | c :: cs, 0, f => f c :: cs
  | c :: cs, k + 1, f => c :: upd cs k f

/-- The `Coeffs` trait: coefficient-storage implementations. -/
structure Coeffs where
  newC : ℕ → Option (List ℚ × ℕ)
  zeroC : List ℚ
  oneC : List ℚ

/-- `impl Coeffs for [Rational; n]` (the `fixed_size_scalar!` macro,
instantiated in the source at n = 1..8): `new(sz)` succeeds iff `sz`
divides `n`, with padding `n / sz`. -/
def fixedC (n : ℕ) : Coeffs where
  newC sz := if n % sz == 0 then some (List.replicate n 0, n / sz) else none
  zeroC := List.replicate n 0
  oneC := upd (List.replicate n 0) 0 (fun _ => 1)

/-- `impl Coeffs for Vec<Rational>`: `new(sz)` always succeeds with
padding 1. -/
def vecC : Coeffs where
  newC sz := some (List.replicate sz 0, 1)
  zeroC := [0]
  oneC := [1]

/-- A hypothetical further implementation of the `Coeffs` trait (the
trait is open in the source): a capacity-bounded growable list whose
`new(sz)` fails for `sz > cap`.  It is used to instantiate the
trait-generic arithmetic at a type where `new` can return `None`, which
none of the provided implementations can reach with two operands of the
same Rust type. -/
def cappedC (cap : ℕ) : Coeffs where
  newC sz := if sz ≤ cap then some (List.replicate sz 0, 1) else none
  zeroC := [0]
  oneC := [1]

/-- The `Scalar<T>` enum. -/
inductive Scalar where
  | Exact (cs : List ℚ)
  | Float (c : ℂ)

/-- `lcm_with_padding`. -/
def lcm_with_padding (n1 n2 : ℕ) : ℕ × ℕ × ℕ :=
  if n1 = n2 then (n1, 1, 1)
  else (Nat.lcm n1 n2, Nat.lcm n1 n2 / n1, Nat.lcm n1 n2 / n2)

/-- `omega` in `float_value`: `Complex::new(-1,0).powf(1/len)`, the
principal complex power `(-1)^(1/len)`. -/
noncomputable def omegaN (len : ℕ) : ℂ := (-1 : ℂ) ^ ((((1 : ℝ) / (len : ℝ)) : ℝ) : ℂ)

/-- `Scalar::float_value`: `Σ coeffs[i] · omega^i` for the `Exact`
variant, the stored complex number for `Float`. -/
noncomputable def float_value : Scalar → ℂ
  | .Exact cs => ∑ i ∈ Finset.range cs.length, ((cs.getD i 0 : ℚ) : ℂ) * omegaN cs.length ^ i
  | .Float c => c

/-- `Zero for Scalar<T>`. -/
def zeroS (T : Coeffs) : Scalar := .Exact T.zeroC

/-- `One for Scalar<T>`. -/
def oneS (T : Coeffs) : Scalar := .Exact T.oneC

/-- `Scalar::from_int_coeffs` (`none` models the `panic!` on a wrong
number of coefficients). -/
def from_int_coeffs (T : Coeffs) (coeffs : List ℤ) : Option Scalar :=
  match T.newC coeffs.length with
  | some (cs1, pad) =>
    some (.Exact ((List.range coeffs.length).foldl
      (fun acc i => upd acc (i * pad) (fun _ => ((coeffs.getD i 0 : ℤ) : ℚ))) cs1))
  | none => none

/-- `Add for &Scalar<T>`.  Note the `None` branch of the source returns
`Float(self.float_value() + self.float_value())`. -/
noncomputable def addS (T : Coeffs) : Scalar → Scalar → Scalar
  | .Float c, x => .Float (c + float_value x)
  | x, .Float c => .Float (float_value x + c)
  | .Exact cs0, .Exact cs1 =>
    let l := lcm_with_padding cs0.length cs1.length
    match T.newC l.1 with
    | some (cs, pad) =>
      let cs' := (List.range cs0.length).foldl
        (fun acc i => upd acc (i * pad * l.2.1) (· + cs0.getD i 0)) cs
      .Exact ((List.range cs1.length).foldl
        (fun acc i => upd acc (i * pad * l.2.2) (· + cs1.getD i 0)) cs')
    | none => .Float (float_value (.Exact cs0) + float_value (.Exact cs0))

/-- `Mul for &Scalar<T>`: convolution modulo `ω^lcm = −1` in the
representable case, degrading to the product of floating evaluations
otherwise. -/
noncomputable def mulS (T : Coeffs) : Scalar → Scalar → Scalar
  | .Float c, x => .Float (c * float_value x)
  | x, .Float c => .Float (float_value x * c)
  | .Exact cs0, .Exact cs1 =>
    let l := lcm_with_padding cs0.length cs1.length
    match T.newC l.1 with
    | some (cs, pad) =>
      .Exact ((List.range cs0.length).foldl (fun acc i =>
        (List.range cs1.length).foldl (fun acc2 j =>
          let pos := (i * pad * l.2.1 + j * pad * l.2.2) % (2 * l.1)
          if pos < l.1 then upd acc2 pos (· + cs0.getD i 0 * cs1.getD j 0)
          else upd acc2 (pos - l.1) (· - cs0.getD i 0 * cs1.getD j 0)) acc) cs)
    | none => .Float (float_value (.Exact cs0) * float_value (.Exact cs1))

/-- `Sqrt2 for Scalar<T>::sqrt2_pow` (`1isize << k` is `2^k`; the `i32`
divisions act on non-negative operands and are natural division).  The
degrade branch of the source returns `Float(2.0f64.powi(p))`. -/
noncomputable def sqrt2_pow (T : Coeffs) (p : ℤ) : Scalar :=
  match T.newC 4 with
  | some (cs, pad) =>
    if p % 2 = 0 then
      let r : ℚ := if p < 0 then 1 / 2 ^ ((-p).toNat / 2) else 2 ^ (p.toNat / 2)
      .Exact (upd cs 0 (fun _ => r))
    else
      let r : ℚ := if p < 0 then 1 / 2 ^ ((-(p - 1)).toNat / 2) else 2 ^ ((p - 1).toNat / 2)
      .Exact (upd (upd cs pad (fun _ => r)) (3 * pad) (fun _ => -r))
  | none => .Float (((2 : ℝ) ^ p : ℝ) : ℂ)

/-- `FromPhase for Scalar<T>::from_phase`.  `p.numer()/p.denom()` are the
reduced numerator and (positive) denominator; `rem_euclid` is `Int.emod`.
The degrade branch computes `Complex::new(-1,0).powf(numer/denom)`. -/
noncomputable def from_phase (T : Coeffs) (p : ℚ) : Scalar :=
  match T.newC p.den with
  | some (cs, pad) =>
    let rnumer := p.num * pad
    let rdenom := (p.den : ℤ) * pad
    let rnumer := rnumer % (2 * rdenom)
    let sgn : ℚ := if rnumer ≥ rdenom then -1 else 1
    let rnumer := if rnumer ≥ rdenom then rnumer - rdenom else rnumer
    .Exact (upd cs rnumer.toNat (fun _ => sgn))
  | none => .Float ((-1 : ℂ) ^ ((((p.num : ℝ) / (p.den : ℝ)) : ℝ) : ℂ))

/-- The coefficient-list comparison inside `PartialEq for Scalar<T>`
(`Exact` vs `Exact`): compare after lcm-padding. -/
def eqB (cs0 cs1 : List ℚ) : Bool :=
  let l := lcm_with_padding cs0.length cs1.length
  (List.range l.1).all fun i =>
    (if i % l.2.1 == 0 then cs0.getD (i / l.2.1) 0 else 0) ==
    (if i % l.2.2 == 0 then cs1.getD (i / l.2.2) 0 else 0)

/-- `PartialEq for Scalar<T>`: floats compare as floats, exact values
compare after lcm-padding, mixed variants are never equal. -/
def scalar_eq : Scalar → Scalar → Prop
  | .Float c0, .Float c1 => c0 = c1
  | .Exact cs0, .Exact cs1 => eqB cs0 cs1 = true
  | _, _ => False

/-! ## `tensor.rs`: dense tensors of scalars

An `ndarray` tensor is modelled by its shape and a lookup function from
index vectors to elements (row-major storage is an implementation
detail; `ndarray` equality and all operators used here are logical,
i.e. index-wise).  The element type is `Scalar` with a `Coeffs`
parameter `T` fixing the concrete scalar type (`to_tensor4` uses the
order-4 fixed-size type). -/

structure Tensor where
  shape : List ℕ
  data : List ℕ → Scalar

/-- All valid index vectors of a shape, in row-major order. -/
def all_ix : List ℕ → List (List ℕ)
  | [] => [[]]
  | s :: rest => (List.range s).flatMap fun v => (all_ix rest).map (v :: ·)

/-- `ndarray` `==` on tensors: equal shapes and `PartialEq`-equal
entries at every index. -/
def tensor_eq (t1 t2 : Tensor) : Prop :=
  t1.shape = t2.shape ∧ ∀ ix ∈ all_ix t1.shape, scalar_eq (t1.data ix) (t2.data ix)

/-- `QubitOps::ident`: the `2q`-axis identity tensor, 1 where the first
`q` axes equal the last `q` axes pairwise. -/
noncomputable def ident (T : Coeffs) (q : ℕ) : Tensor where
  shape := List.replicate (q * 2) 2
  data ix :=
    if (List.range q).all (fun i => ix.getD i 0 == ix.getD (q + i) 0) then oneS T else zeroS T

/-- `QubitOps::cphase_at`: multiply in (with broadcasting) the tensor
that is `from_phase(p)` where all the axes listed in `qs` are 1 and
`one()` elsewhere. -/
noncomputable def cphase_at (T : Coeffs) (p : ℚ) (qs : List ℕ) (t : Tensor) : Tensor where
  shape := t.shape
  data ix :=
    mulS T (t.data ix) (if qs.all (fun q => ix.getD q 0 == 1) then from_phase T p else oneS T)

/-- `QubitOps::hadamard_at`: split axis `q` into its 0- and 1-valued
halves and map each pair `(a, b)` to `(n·(a+b), n·(a + minus·b))`, with
`n = one_over_sqrt2() = sqrt2_pow(-1)` and `minus = from_phase(1)`. -/
noncomputable def hadamard_at (T : Coeffs) (t : Tensor) (q : ℕ) : Tensor where
  shape := t.shape
  data ix :=
    let n := sqrt2_pow T (-1)
    let minus := from_phase T 1
    let a := t.data (ix.set q 0)
    let b := t.data (ix.set q 1)
    if ix.getD q 0 == 0 then mulS T n (addS T a b)
    else mulS T n (addS T a (mulS T minus b))

/-- `ndarray::swap_axes`: the view with axes `q0` and `q1` exchanged. -/
def swap_axes (t : Tensor) (q0 q1 : ℕ) : Tensor where
  shape := (t.shape.set q0 (t.shape.getD q1 0)).set q1 (t.shape.getD q0 0)
  data ix := t.data ((ix.set q0 (ix.getD q1 0)).set q1 (ix.getD q0 0))

/-- The gate kinds of `GType` handled by `ToTensor for Circuit` without
panicking (`ParityPhase`, `InitAncilla` and `PostSelect` panic in the
source and are omitted). -/
inductive GType where
  | ZPhase | Z | CZ | CCZ | S | T | Sdg | Tdg | HAD | NOT | XPhase
  | CNOT | TOFF | SWAP | XCX | UnknownGate

structure Gate where
  t : GType
  qs : List ℕ
  phase : ℚ

/-- One arm of the `match g.t` in `ToTensor for Circuit::to_tensor`. -/
noncomputable def apply_gate (T : Coeffs) (a : Tensor) (g : Gate) : Tensor :=
  match g.t with
  | .ZPhase => cphase_at T g.phase g.qs a
  | .Z | .CZ | .CCZ => cphase_at T 1 g.qs a
  | .S => cphase_at T (1/2) g.qs a
  | .T => cphase_at T (1/4) g.qs a
  | .Sdg => cphase_at T (-(1/2)) g.qs a
  | .Tdg => cphase_at T (-(1/4)) g.qs a
  | .HAD => hadamard_at T a (g.qs.getD 0 0)
  | .NOT =>
    hadamard_at T (cphase_at T 1 g.qs (hadamard_at T a (g.qs.getD 0 0))) (g.qs.getD 0 0)
  | .XPhase =>
    hadamard_at T (cphase_at T g.phase g.qs (hadamard_at T a (g.qs.getD 0 0))) (g.qs.getD 0 0)
  | .CNOT =>
    hadamard_at T (cphase_at T 1 g.qs (hadamard_at T a (g.qs.getD 1 0))) (g.qs.getD 1 0)
  | .TOFF =>
    hadamard_at T (cphase_at T 1 g.qs (hadamard_at T a (g.qs.getD 2 0))) (g.qs.getD 2 0)
  | .SWAP => swap_axes a (g.qs.getD 0 0) (g.qs.getD 1 0)
  | .XCX =>
    hadamard_at T (hadamard_at T
      (cphase_at T g.phase g.qs
        (hadamard_at T (hadamard_at T a (g.qs.getD 0 0)) (g.qs.getD 1 0)))
      (g.qs.getD 0 0)) (g.qs.getD 1 0)
  | .UnknownGate => a

/-- `ToTensor for Circuit::to_tensor`: start from the identity tensor on
`q` qubits and apply the gates in reverse sequence order. -/
noncomputable def circuit_to_tensor (T : Coeffs) (q : ℕ) (gates : List Gate) : Tensor :=
  gates.reverse.foldl (apply_gate T) (ident T q)

/-! ## Auxiliary predicates and concrete instances used by the theorems -/

/-- Well-formedness of a `Scalar4` value (element type of `to_tensor4`):
an `Exact` value of the `[Rational; 4]` storage holds exactly 4
coefficients.  (`Float` values are excluded; see the theorems on
`hadamard_at`.) -/
def wf4 : Scalar → Prop
  | .Exact cs => cs.length = 4
  | .Float _ => False

/-- The coefficient-storage implementations provided by the source:
the fixed-size arrays (nonempty) and the growable vector. -/
def std_coeffs (T : Coeffs) : Prop :=
  (∃ n, 1 ≤ n ∧ T = fixedC n) ∨ T = vecC

/-- Whether a scalar is in the `Exact` representation. -/
def is_exact : Scalar → Prop
  | .Exact _ => True
  | .Float _ => False

/-- A one-axis `Scalar4` tensor with one `Exact` and one `Float` entry
(in Rust: `array![Scalar4::one(), Scalar4::complex(0.0, 0.0)]`). -/
noncomputable def mixed_tensor : Tensor where
  shape := [2]
  data ix := if ix.getD 0 0 == 0 then oneS (fixedC 4) else .Float 0

/-- A one-axis `Scalar4` tensor whose entries are all `one()` (in Rust:
`array![Scalar4::one(), Scalar4::one()]`). -/
def ones_tensor : Tensor where
  shape := [2]
  data _ := oneS (fixedC 4)

/-! ## General helper lemmas -/

theorem foldl_fixed {α β : Type} {f : α → β → α} {a : α} (h : ∀ b, f a b = a) :
    ∀ l : List β, l.foldl f a = a
  | [] => rfl
  | b :: l => by rw [List.foldl_cons, h b]; exact foldl_fixed h l

theorem scalar_eq_of_eqB {cs0 cs1 : List ℚ} (h : eqB cs0 cs1 = true) :
    scalar_eq (.Exact cs0) (.Exact cs1) := h

/-! ## Claim C1: `inverse` on square matrices

The claim fails: for the invertible matrix
`A = [[1,1,0,0],[0,1,0,0],[0,0,1,0],[0,0,0,1]]` (rank 4), `inverse`
returns `Some(B)` with `A*B ≠ Identity(4)` (and `B*A ≠ Identity(4)`).
During the full-reduce pass, the pivot column popped after finishing a
block is discarded when it belongs to an earlier block, so its pivot is
never cleared and the recorder accumulates a wrong transform. -/

/-- C1.  `inverse` of the invertible 4×4 matrix `A` above returns
`Some(B)` with `B = [[1,1,0,0],[0,1,1,0],[0,0,1,0],[0,0,0,1]]`, although
`A` has full rank 4 and neither `A*B` nor `B*A` is the identity: both
products equal `[[1,0,1,0],[0,1,1,0],[0,0,1,0],[0,0,0,1]]`. -/
theorem C1_inverse_wrong :
    Mat2.rank [[1,1,0,0],[0,1,0,0],[0,0,1,0],[0,0,0,1]] = 4 ∧
    Mat2.inverse [[1,1,0,0],[0,1,0,0],[0,0,1,0],[0,0,0,1]]
      = some (some [[1,1,0,0],[0,1,1,0],[0,0,1,0],[0,0,0,1]]) ∧
    Mat2.mat_mul [[1,1,0,0],[0,1,0,0],[0,0,1,0],[0,0,0,1]]
        [[1,1,0,0],[0,1,1,0],[0,0,1,0],[0,0,0,1]] ≠ Mat2.idm 4 ∧
    Mat2.mat_mul [[1,1,0,0],[0,1,1,0],[0,0,1,0],[0,0,0,1]]
        [[1,1,0,0],[0,1,0,0],[0,0,1,0],[0,0,0,1]] ≠ Mat2.idm 4 := by
  refine ⟨by decide, by decide, by decide, by decide⟩

/-! ## Claim C2: `gauss(full_reduce = true)`

The claim fails in two ways.  Termination: on any rank-0 matrix with at
least one row (e.g. `[[0]]`) the full-reduce pass executes
`pivot_row -= 1` with `pivot_row = 0`, underflowing the unsigned
counter (modelled as `none`).  Reduced form: on
`[[1,0,0,0],[0,1,0,0],[0,0,0,1]]` — already in reduced row-echelon form
— `gauss(true)` *returns* rank 3 but leaves the matrix as
`[[1,1,0,0],[0,1,0,0],[0,0,0,1]]`, in which pivot column 1 is not
cleared above its pivot (row 0 has a 1 there). -/

/-- C2.  `gauss(true)` fails to terminate normally on the 1×1 zero
matrix (unsigned underflow, modelled as `none`), and on the RREF matrix
`[[1,0,0,0],[0,1,0,0],[0,0,0,1]]` it produces a matrix that is not in
reduced row-echelon form: entry (0,1) is 1 although column 1 is the
pivot column of row 1. -/
theorem C2_gauss_full_reduce_wrong :
    Mat2.gauss [[0]] true = none ∧
    Mat2.gauss_mat [[1,0,0,0],[0,1,0,0],[0,0,0,1]] true
      = some [[1,1,0,0],[0,1,0,0],[0,0,0,1]] ∧
    Mat2.gauss [[1,0,0,0],[0,1,0,0],[0,0,0,1]] true = some 3 := by
  refine ⟨by decide, by decide, by decide⟩

/-! ## Claim C9: row_add / row_swap involutions -/

theorem getD_of_lt {α : Type} {l : List α} {d : α} {i : ℕ} (h : i < l.length) :
    l.getD i d = l[i] := by
  rw [List.getD_eq_getElem?_getD, List.getElem?_eq_getElem h]; rfl

theorem getD_of_ge {α : Type} {l : List α} {d : α} {i : ℕ} (h : l.length ≤ i) :
    l.getD i d = d := by
  rw [List.getD_eq_getElem?_getD, List.getElem?_eq_none h]; rfl

theorem getD_set_ne {α : Type} {l : List α} {d : α} {i j : ℕ} {v : α} (h : i ≠ j) :
    (l.set i v).getD j d = l.getD j d := by
  rw [List.getD_eq_getElem?_getD, List.getD_eq_getElem?_getD, List.getElem?_set_ne h]

theorem getD_set_self {α : Type} {l : List α} {d : α} {i : ℕ} {v : α} (h : i < l.length) :
    (l.set i v).getD i d = v := by
  rw [List.getD_eq_getElem?_getD, List.getElem?_set_self h]; rfl

theorem getD_map_range {α : Type} {n i : ℕ} {f : ℕ → α} {d : α} (h : i < n) :
    ((List.range n).map f).getD i d = f i := by
  have hlen : i < ((List.range n).map f).length := by simpa using h
  rw [getD_of_lt hlen, List.getElem_map, List.getElem_range]

theorem entry_set_ne {m : Mat} {r r' c : ℕ} {v : List ℕ} (h : r ≠ r') :
    Mat2.entry (m.set r v) r' c = Mat2.entry m r' c := by
  unfold Mat2.entry; rw [getD_set_ne h]

theorem entry_set_self {m : Mat} {r c : ℕ} {v : List ℕ} (h : r < m.length) :
    Mat2.entry (m.set r v) r c = v.getD c 0 := by
  unfold Mat2.entry; rw [getD_set_self h]

theorem entry_lt_two {m : Mat} (hgf2 : ∀ row ∈ m, ∀ x ∈ row, x < 2) (r c : ℕ) :
    Mat2.entry m r c < 2 := by
  unfold Mat2.entry
  rcases Nat.lt_or_ge r m.length with hr | hr
  · rw [getD_of_lt hr]
    rcases Nat.lt_or_ge c m[r].length with hc | hc
    · rw [getD_of_lt hc]
      exact hgf2 _ (List.getElem_mem _) _ (List.getElem_mem _)
    · rw [getD_of_ge hc]; norm_num
  · rw [getD_of_ge hr]; simp

/-- C9 counterexample: for the GF(2) matrix `[[1]]` and the in-bounds
pair of row indices `r0 = r1 = 0`, applying `row_add(0,0)` twice yields
`[[0]]`, not the original matrix (a row added to itself is zeroed, and
stays zero). -/
theorem C9_counterexample :
    Mat2.row_add (Mat2.row_add [[1]] 0 0) 0 0 = [[0]] ∧
    Mat2.row_add (Mat2.row_add [[1]] 0 0) 0 0 ≠ [[1]] := by
  refine ⟨by decide, by decide⟩

/-- C9 amended: for every rectangular GF(2) matrix (entries 0/1) and
every pair of *distinct* in-bounds row indices `r0 ≠ r1`, applying
`row_add(r0, r1)` twice restores the matrix, and applying
`row_swap(r0, r1)` twice restores the matrix. -/
theorem C9_row_ops_involutive (m : Mat) (r0 r1 : ℕ) (h01 : r0 ≠ r1)
    (h0 : r0 < Mat2.num_rows m) (h1 : r1 < Mat2.num_rows m)
    (hrect : ∀ row ∈ m, row.length = Mat2.num_cols m)
    (hgf2 : ∀ row ∈ m, ∀ x ∈ row, x < 2) :
    Mat2.row_add (Mat2.row_add m r0 r1) r0 r1 = m ∧
    Mat2.row_swap (Mat2.row_swap m r0 r1) r0 r1 = m := by
  have h0' : r0 < m.length := h0
  have h1' : r1 < m.length := h1
  constructor
  · -- row_add twice
    unfold Mat2.row_add
    set ncols := Mat2.num_cols m with hncols
    set v : List ℕ := (List.range ncols).map fun i =>
      (Mat2.entry m r0 i + Mat2.entry m r1 i) % 2 with hv
    have hvlen : v.length = ncols := by simp [hv]
    have hnc : Mat2.num_cols (m.set r1 v) = ncols := by
      unfold Mat2.num_cols
      rcases eq_or_ne r1 0 with h | h
      · subst h; rw [getD_set_self h1']; exact hvlen
      · rw [getD_set_ne h]; rfl
    have he0 : ∀ i, Mat2.entry (m.set r1 v) r0 i = Mat2.entry m r0 i :=
      fun i => entry_set_ne (Ne.symm h01)
    have he1 : ∀ i, i < ncols →
        Mat2.entry (m.set r1 v) r1 i = (Mat2.entry m r0 i + Mat2.entry m r1 i) % 2 := by
      intro i hi
      rw [entry_set_self h1', hv, getD_map_range hi]
    rw [hnc, List.set_set]
    apply List.ext_getElem (by simp)
    intro i hi hi'
    rcases eq_or_ne r1 i with h | h
    · have hvi : i < (m.set r1 ((List.range ncols).map fun c =>
          (Mat2.entry (m.set r1 v) r0 c + Mat2.entry (m.set r1 v) r1 c) % 2)).length := hi
      subst h
      rw [List.getElem_set_self (by simpa using h1')]
      apply List.ext_getElem
      · simpa using (hrect m[r1] (List.getElem_mem _)).symm
      · intro c hc hc'
        have hcn : c < ncols := by simpa using hc
        rw [List.getElem_map, List.getElem_range, he0, he1 _ hcn]
        have hb : Mat2.entry m r1 c = m[r1][c] := by
          unfold Mat2.entry; rw [getD_of_lt h1', getD_of_lt hc']
        rw [← hb]
        have ha2 := entry_lt_two hgf2 r0 c
        have hb2 := entry_lt_two hgf2 r1 c
        omega
    · rw [List.getElem_set_ne h]
  · -- row_swap twice
    unfold Mat2.row_swap
    have hb : m.getD r1 [] = m[r1] := getD_of_lt h1'
    have ha : m.getD r0 [] = m[r0] := getD_of_lt h0'
    have hg1 : ((m.set r0 m[r1]).set r1 m[r0]).getD r1 [] = m[r0] :=
      getD_set_self (by simpa using h1')
    have hg0 : ((m.set r0 m[r1]).set r1 m[r0]).getD r0 [] = m[r1] := by
      rw [getD_set_ne (Ne.symm h01), getD_set_self h0']
    rw [hb, ha, hg1, hg0]
    apply List.ext_getElem (by simp)
    intro i hi hi'
    rcases eq_or_ne r1 i with hr1 | hr1
    · subst hr1
      rw [List.getElem_set_self (by simpa using h1')]
    · rw [List.getElem_set_ne hr1]
      rcases eq_or_ne r0 i with hr0 | hr0
      · subst hr0
        rw [List.getElem_set_self (by simpa using h0')]
      · rw [List.getElem_set_ne hr0, List.getElem_set_ne hr1, List.getElem_set_ne hr0]

/-! ## Claim C5: `gauss(true)` and `inverse` on rank-0 matrices -/

theorem entry_zero {m : Mat} (hz : ∀ row ∈ m, ∀ x ∈ row, x = 0) (r c : ℕ) :
    Mat2.entry m r c = 0 := by
  unfold Mat2.entry
  rcases Nat.lt_or_ge r m.length with hr | hr
  · rw [getD_of_lt hr]
    rcases Nat.lt_or_ge c m[r].length with hc | hc
    · rw [getD_of_lt hc]
      exact hz _ (List.getElem_mem _) _ (List.getElem_mem _)
    · rw [getD_of_ge hc]
  · rw [getD_of_ge hr]; simp

theorem slice_all_zero {m : Mat} (hz : ∀ row ∈ m, ∀ x ∈ row, x = 0) (r i0 i1 : ℕ) :
    (Mat2.slice (m.getD r []) i0 i1).all (· == 0) = true := by
  rw [List.all_eq_true]
  intro x hx
  have hx' : x ∈ m.getD r [] :=
    List.mem_of_mem_drop (List.mem_of_mem_take hx)
  rcases Nat.lt_or_ge r m.length with hr | hr
  · rw [getD_of_lt hr] at hx'
    simp [hz _ (List.getElem_mem _) _ hx']
  · rw [getD_of_ge hr] at hx'
    simp at hx'

theorem chunk_rows_zero {m : Mat} (hz : ∀ row ∈ m, ∀ x ∈ row, x = 0)
    (x : Mat) (i0 i1 : ℕ) (rs : List ℕ) :
    Mat2.chunk_rows i0 i1 rs (m, x) = (m, x) := by
  unfold Mat2.chunk_rows
  rw [foldl_fixed (fun r => by
    dsimp only
    simp only [slice_all_zero hz, if_true]) rs]

theorem find_pivot_none {m : Mat} (hz : ∀ row ∈ m, ∀ x ∈ row, x = 0) (p : ℕ)
    (l : List ℕ) : (l.find? fun r0 => Mat2.entry m r0 p != 0) = none := by
  rw [List.find?_eq_none]
  intro r0 _
  simp [entry_zero hz]

theorem block_step_zero {m : Mat} (hz : ∀ row ∈ m, ∀ x ∈ row, x = 0)
    (x : Mat) (pr : ℕ) (pcs : List ℕ) (bs cols rows sec : ℕ) :
    Mat2.block_step bs cols rows ⟨m, x, pr, pcs⟩ sec = ⟨m, x, pr, pcs⟩ := by
  unfold Mat2.block_step
  dsimp only
  rw [chunk_rows_zero hz x (sec * bs) (min cols ((sec + 1) * bs)) (List.range' pr (rows - pr))]
  exact foldl_fixed (fun p => by
    unfold Mat2.pivot_col_step
    dsimp only
    rw [find_pivot_none hz]) _

theorem first_pass_zero {m : Mat} (hz : ∀ row ∈ m, ∀ x ∈ row, x = 0)
    (x : Mat) (bs : ℕ) : Mat2.first_pass bs m x = ⟨m, x, 0, []⟩ := by
  unfold Mat2.first_pass
  exact foldl_fixed (fun sec => block_step_zero hz x 0 [] bs _ _ sec) _

/-- C5.  For every square all-zero (i.e. rank-0) matrix with at least
one row, `gauss(full_reduce = true)` does not return: the left-to-right
pass finds no pivot, so the full-reduce pass starts by decrementing the
unsigned pivot-row counter `pivot_row = 0` (an arithmetic underflow,
modelled as `none`), and `inverse()` — which calls
`gauss_helper(true, ..)` — panics in the same way instead of returning
`None`. -/
theorem C5_rank0_full_reduce_panics (m : Mat)
    (hz : ∀ row ∈ m, ∀ x ∈ row, x = 0)
    (_hrows : 1 ≤ Mat2.num_rows m)
    (hsq : Mat2.num_cols m = Mat2.num_rows m) :
    Mat2.gauss m true = none ∧ Mat2.inverse m = none := by
  have hg : Mat2.gauss_helper true 3 m = fun _ => none := by
    funext x
    unfold Mat2.gauss_helper
    rw [first_pass_zero hz x 3]
    simp
  constructor
  · unfold Mat2.gauss
    rw [hg]
    rfl
  · unfold Mat2.inverse
    rw [if_neg (by omega), hg]

/-- C5 witness: the all-zero 2×2 matrix satisfies the hypotheses, and
both `gauss(true)` and `inverse` panic on it. -/
theorem C5_witness :
    (∀ row ∈ ([[0,0],[0,0]] : Mat), ∀ x ∈ row, x = 0) ∧
    Mat2.gauss [[0,0],[0,0]] true = none ∧ Mat2.inverse [[0,0],[0,0]] = none := by
  refine ⟨by decide, C5_rank0_full_reduce_panics [[0,0],[0,0]] (by decide) (by decide) (by decide)⟩

/-! ## Helper lemmas for the scalar model -/

theorem upd_length (cs : List ℚ) (k : ℕ) (f : ℚ → ℚ) :
    (upd cs k f).length = cs.length := by
  induction cs generalizing k with
  | nil => rfl
  | cons c cs ih =>
    cases k with
    | zero => rfl
    | succ k => simp [upd, ih]

theorem upd_getD_self {cs : List ℚ} {k : ℕ} (h : k < cs.length) (f : ℚ → ℚ) :
    (upd cs k f).getD k 0 = f (cs.getD k 0) := by
  induction cs generalizing k with
  | nil => simp at h
  | cons c cs ih =>
    cases k with
    | zero => rfl
    | succ k =>
      simp only [upd, List.getD_cons_succ]
      exact ih (by simpa using h) 

theorem upd_getD_ne {cs : List ℚ} {k n : ℕ} (h : n ≠ k) (f : ℚ → ℚ) :
    (upd cs k f).getD n 0 = cs.getD n 0 := by
  induction cs generalizing k n with
  | nil => rfl
  | cons c cs ih =>
    cases k with
    | zero =>
      cases n with
      | zero => exact absurd rfl h
      | succ n => rfl
    | succ k =>
      cases n with
      | zero => rfl
      | succ n =>
        simp only [upd, List.getD_cons_succ]
        exact ih (fun hc => h (by omega))

theorem getD_replicate_zero {L n : ℕ} : (List.replicate L (0 : ℚ)).getD n 0 = 0 := by
  induction L generalizing n with
  | zero => rfl
  | succ L ih =>
    cases n with
    | zero => rfl
    | succ n => simp [List.replicate, ih]

/-! ## Claim C3: the degrade branch of `Add`

The source's unrepresentable-lcm branch returns
`Float(self.float_value() + self.float_value())` — the left operand's
floating value added to itself — instead of the sum of the two
operands' floating evaluations. -/

/-- C3.  Over a capacity-4 coefficient type, adding the `Exact` scalars
`[1,0,0]` (order 3, value 1) and `[2,0,0,0]` (order 4, value 2) has an
unrepresentable lcm order 12; the result is
`Float(float_value(a) + float_value(a))` = `Float 2`, not
`Float(float_value(a) + float_value(b))` = `Float 3`. -/
theorem C3_add_degrade_bug :
    addS (cappedC 4) (.Exact [1,0,0]) (.Exact [2,0,0,0])
      = .Float (float_value (.Exact ([1,0,0] : List ℚ)) + float_value (.Exact ([1,0,0] : List ℚ)))
    ∧ addS (cappedC 4) (.Exact [1,0,0]) (.Exact [2,0,0,0])
      ≠ .Float (float_value (.Exact ([1,0,0] : List ℚ)) + float_value (.Exact ([2,0,0,0] : List ℚ))) := by
  have h1 : float_value (.Exact ([1,0,0] : List ℚ)) = 1 := by
    simp only [float_value]
    rw [show ([1,0,0] : List ℚ).length = 3 from rfl]
    rw [Finset.sum_range_succ, Finset.sum_range_succ, Finset.sum_range_succ,
      Finset.sum_range_zero]
    rw [show ([1,0,0] : List ℚ).getD 0 0 = 1 from rfl,
      show ([1,0,0] : List ℚ).getD 1 0 = 0 from rfl,
      show ([1,0,0] : List ℚ).getD 2 0 = 0 from rfl]
    norm_num
  have h2 : float_value (.Exact ([2,0,0,0] : List ℚ)) = 2 := by
    simp only [float_value]
    rw [show ([2,0,0,0] : List ℚ).length = 4 from rfl]
    rw [Finset.sum_range_succ, Finset.sum_range_succ, Finset.sum_range_succ,
      Finset.sum_range_succ, Finset.sum_range_zero]
    rw [show ([2,0,0,0] : List ℚ).getD 0 0 = 2 from rfl,
      show ([2,0,0,0] : List ℚ).getD 1 0 = 0 from rfl,
      show ([2,0,0,0] : List ℚ).getD 2 0 = 0 from rfl,
      show ([2,0,0,0] : List ℚ).getD 3 0 = 0 from rfl]
    norm_num
  have hadd : addS (cappedC 4) (.Exact [1,0,0]) (.Exact [2,0,0,0])
      = .Float (float_value (.Exact ([1,0,0] : List ℚ)) + float_value (.Exact ([1,0,0] : List ℚ))) := by
    with_unfolding_all rfl
  refine ⟨hadd, fun h => ?_⟩
  rw [hadd] at h
  injection h with h
  rw [h1, h2] at h
  norm_num at h

/-! ## Claim C10: the provided storage types never degrade -/

/-- C10.  For the provided coefficient-storage implementations — a
fixed-size array (where both operands necessarily have the same
physical length `n`) or the growable vector (whose `new` always
succeeds) — the sum and the product of two `Exact` scalars are again
`Exact`: the degrade-to-`Float` branch of `+` and `*` is not taken. -/
theorem C10_arith_stays_exact (T : Coeffs) (n : ℕ) (cs0 cs1 : List ℚ)
    (hT : (T = fixedC n ∧ cs0.length = n ∧ cs1.length = n) ∨ T = vecC) :
    is_exact (addS T (.Exact cs0) (.Exact cs1)) ∧
    is_exact (mulS T (.Exact cs0) (.Exact cs1)) := by
  rcases hT with ⟨hT, h0, h1⟩ | hT
  · subst hT
    constructor
    · simp only [addS, h0, h1, lcm_with_padding, if_pos, fixedC, Nat.mod_self]
      simp [is_exact]
    · simp only [mulS, h0, h1, lcm_with_padding, if_pos, fixedC, Nat.mod_self]
      simp [is_exact]
  · subst hT
    constructor
    · simp only [addS, vecC]
      simp [is_exact]
    · simp only [mulS, vecC]
      simp [is_exact]

/-- C10 witness: the growable-vector type with operands `[1]` and `[1]`. -/
theorem C10_witness :
    is_exact (addS vecC (.Exact [1]) (.Exact [1])) ∧
    is_exact (mulS vecC (.Exact [1]) (.Exact [1])) :=
  C10_arith_stays_exact vecC 1 [1] [1] (Or.inr rfl)

/-! ## Claim C4, counterexample part

For the order-1 fixed-size instantiation (`Scalar1`), `T::new(4)` fails
(1 is not a multiple of 4), so `sqrt2_pow` degrades to `Float`; in
particular `sqrt2_pow(0)` is `Float(1.0)`, which is *not* `== one()`
(mixed `Float`/`Exact` values are never `PartialEq`-equal).  Moreover
the degrade branch returns `Float(2.0.powi(p))` = `2^p`, which misses
`sqrt(2)^k` by far more than `1e-6` at odd `k`. -/

/-- C4 counterexample: at the order-1 fixed-size instantiation the
claim fails for `k = 0`: `sqrt2_pow(0)` is not equal (`PartialEq`) to
`one()`. -/
theorem C4_counterexample :
    ¬ scalar_eq (sqrt2_pow (fixedC 1) 0) (oneS (fixedC 1)) := by
  intro h
  exact h

/-! ## Floating evaluation of the exact representations

`float_value` idealises the `f64` computation over `ℂ`: `omega` is the
principal value of `(-1)^(1/N)`, i.e. `exp(π·I/N)`. -/

theorem omegaN_eq (L : ℕ) :
    omegaN L = Complex.exp ((Real.pi : ℂ) * Complex.I * (1 / (L : ℂ))) := by
  unfold omegaN
  rw [Complex.cpow_def_of_ne_zero (by norm_num), Complex.log_neg_one]
  push_cast
  ring_nf

theorem omegaN_pow (L n : ℕ) :
    omegaN L ^ n = Complex.exp ((Real.pi : ℂ) * Complex.I * ((n : ℂ) / (L : ℂ))) := by
  rw [omegaN_eq, ← Complex.exp_nat_mul]
  congr 1
  ring

theorem float_value_upd_single {L i : ℕ} (hi : i < L) (f : ℚ → ℚ) :
    float_value (.Exact (upd (List.replicate L 0) i f)) = (f 0 : ℂ) * omegaN L ^ i := by
  simp only [float_value]
  rw [show (upd (List.replicate L 0) i f).length = L by rw [upd_length]; simp]
  rw [Finset.sum_eq_single i]
  · rw [upd_getD_self (by simp [hi]) f, getD_replicate_zero]
  · intro b _ hne
    rw [upd_getD_ne hne f, getD_replicate_zero]
    simp
  · intro h
    exact absurd (Finset.mem_range.mpr hi) h

theorem float_value_upd_double {L i j : ℕ} (hij : i ≠ j) (hi : i < L) (hj : j < L)
    (f g : ℚ → ℚ) :
    float_value (.Exact (upd (upd (List.replicate L 0) i f) j g))
      = (f 0 : ℂ) * omegaN L ^ i + (g 0 : ℂ) * omegaN L ^ j := by
  have hgj : (upd (upd (List.replicate L 0) i f) j g).getD j 0 = g 0 := by
    rw [upd_getD_self (by rw [upd_length]; simp [hj]) g,
      upd_getD_ne (Ne.symm hij) f, getD_replicate_zero]
  have hgi : (upd (upd (List.replicate L 0) i f) j g).getD i 0 = f 0 := by
    rw [upd_getD_ne hij g, upd_getD_self (by simp [hi]) f, getD_replicate_zero]
  have hgn : ∀ n, n ≠ i → n ≠ j →
      (upd (upd (List.replicate L 0) i f) j g).getD n 0 = 0 := fun n hni hnj => by
    rw [upd_getD_ne hnj g, upd_getD_ne hni f, getD_replicate_zero]
  simp only [float_value]
  rw [show (upd (upd (List.replicate L 0) i f) j g).length = L by
    rw [upd_length, upd_length]; simp]
  rw [Finset.sum_eq_sum_diff_singleton_add (Finset.mem_range.mpr hj)]
  rw [Finset.sum_eq_sum_diff_singleton_add
    (Finset.mem_sdiff.mpr ⟨Finset.mem_range.mpr hi, by simp [hij]⟩)]
  rw [Finset.sum_eq_zero (fun n hn => by
    simp only [Finset.mem_sdiff, Finset.mem_singleton] at hn
    rw [hgn n hn.2 hn.1.2]
    simp)]
  rw [hgi, hgj]
  ring

theorem exp_quarter_sub_three_quarter :
    Complex.exp ((Real.pi : ℂ) * Complex.I * (1 / 4))
      - Complex.exp ((Real.pi : ℂ) * Complex.I * (3 / 4)) = (Real.sqrt 2 : ℂ) := by
  have h1 : (Real.pi : ℂ) * Complex.I * (1 / 4) = ((Real.pi / 4 : ℝ) : ℂ) * Complex.I := by
    push_cast; ring
  have h3 : (Real.pi : ℂ) * Complex.I * (3 / 4) = ((Real.pi - Real.pi / 4 : ℝ) : ℂ) * Complex.I := by
    push_cast; ring
  rw [h1, h3, Complex.exp_mul_I, Complex.exp_mul_I,
    ← Complex.ofReal_cos, ← Complex.ofReal_sin, ← Complex.ofReal_cos, ← Complex.ofReal_sin,
    Real.cos_pi_sub, Real.sin_pi_sub, Real.cos_pi_div_four, Real.sin_pi_div_four]
  push_cast
  ring

theorem cast_q_pow (t : ℕ) : (((2 : ℚ) ^ t : ℚ) : ℂ) = (2 : ℂ) ^ ((t : ℤ)) := by
  push_cast
  rw [zpow_natCast]

theorem cast_q_inv_pow (t : ℕ) : (((1 / 2 ^ t : ℚ)) : ℂ) = (2 : ℂ) ^ (-(t : ℤ)) := by
  push_cast
  rw [zpow_neg, zpow_natCast, one_div]

theorem sqrt2_sq : ((Real.sqrt 2 : ℂ)) ^ (2 : ℕ) = 2 := by
  rw [← Complex.ofReal_pow, Real.sq_sqrt (by norm_num)]
  norm_num

theorem sqrt2_ne_zero : (Real.sqrt 2 : ℂ) ≠ 0 := by
  simp only [ne_eq, Complex.ofReal_eq_zero]
  positivity

theorem sqrt2_zpow_even (m : ℤ) : ((Real.sqrt 2 : ℂ)) ^ (2 * m) = (2 : ℂ) ^ m := by
  rw [zpow_mul, show ((Real.sqrt 2 : ℂ)) ^ (2 : ℤ) = 2 by
    rw [show (2 : ℤ) = ((2 : ℕ) : ℤ) from rfl, zpow_natCast, sqrt2_sq]]

/-- The heart of C4 for the order-4-capable types: `sqrt2_pow` floating
evaluates exactly to `√2 ^ k`, for any coefficient type whose `new(4)`
yields the all-zero list of physical length `4·pad`. -/
theorem fv_sqrt2_pow (T : Coeffs) (pad : ℕ) (hpad : 1 ≤ pad)
    (hnew : T.newC 4 = some (List.replicate (4 * pad) 0, pad)) (k : ℤ) :
    float_value (sqrt2_pow T k) = (Real.sqrt 2 : ℂ) ^ k := by
  unfold sqrt2_pow
  rw [hnew]
  dsimp only
  rcases Int.even_or_odd k with hk | hk
  · -- even k = m + m
    obtain ⟨m, hm⟩ := hk
    rw [if_pos (Int.even_iff.mp ⟨m, hm⟩)]
    rw [float_value_upd_single (by omega) _]
    rw [pow_zero, mul_one]
    rcases lt_or_ge k 0 with hneg | hpos
    · rw [if_pos hneg]
      have ht : (-k).toNat = 2 * (-m).toNat := by omega
      rw [ht, Nat.mul_div_cancel_left _ (by norm_num), cast_q_inv_pow]
      rw [show k = 2 * (-(((-m).toNat : ℤ))) by omega, mul_neg, zpow_neg, zpow_neg,
        sqrt2_zpow_even]
    · rw [if_neg (by omega)]
      have ht : k.toNat = 2 * m.toNat := by omega
      rw [ht, Nat.mul_div_cancel_left _ (by norm_num), cast_q_pow]
      rw [show k = 2 * ((m.toNat : ℤ)) by omega, sqrt2_zpow_even]
  · -- odd k = 2m + 1
    obtain ⟨m, hm⟩ := hk
    rw [if_neg (by rw [Int.odd_iff.mp ⟨m, hm⟩]; norm_num)]
    rw [float_value_upd_double (show pad ≠ 3 * pad by omega) (by omega) (by omega)]
    have hsplit : (Real.sqrt 2 : ℂ) ^ k = (2 : ℂ) ^ m * (Real.sqrt 2 : ℂ) := by
      rw [hm, zpow_add₀ sqrt2_ne_zero, sqrt2_zpow_even, zpow_one]
    have homega : omegaN (4 * pad) ^ pad - omegaN (4 * pad) ^ (3 * pad)
        = (Real.sqrt 2 : ℂ) := by
      rw [omegaN_pow, omegaN_pow]
      rw [show ((pad : ℂ)) / ((4 * pad : ℕ) : ℂ) = 1 / 4 by
        have : (pad : ℂ) ≠ 0 := Nat.cast_ne_zero.mpr (by omega)
        push_cast
        field_simp
        ring]
      rw [show (((3 * pad : ℕ) : ℂ)) / ((4 * pad : ℕ) : ℂ) = 3 / 4 by
        have : (pad : ℂ) ≠ 0 := Nat.cast_ne_zero.mpr (by omega)
        push_cast
        field_simp
        ring]
      exact exp_quarter_sub_three_quarter
    set r : ℚ := if k < 0 then 1 / 2 ^ ((-(k - 1)).toNat / 2) else 2 ^ ((k - 1).toNat / 2) with hr
    have hcollect : ((r : ℂ)) * omegaN (4 * pad) ^ pad + ((-r : ℚ) : ℂ) * omegaN (4 * pad) ^ (3 * pad)
        = (r : ℂ) * (Real.sqrt 2 : ℂ) := by
      rw [← homega]
      push_cast
      ring
    rw [hcollect, hsplit]
    congr 1
    rcases lt_or_ge k 0 with hneg | hpos
    · rw [hr, if_pos hneg]
      have ht : (-(k - 1)).toNat = 2 * (-m).toNat := by omega
      rw [ht, Nat.mul_div_cancel_left _ (by norm_num), cast_q_inv_pow]
      congr 1
      omega
    · rw [hr, if_neg (by omega)]
      have ht : (k - 1).toNat = 2 * m.toNat := by omega
      rw [ht, Nat.mul_div_cancel_left _ (by norm_num), cast_q_pow]
      congr 1
      omega

/-- C4 amended: restricted to the provided instantiations that support
order 4 — the fixed-size arrays of length 4 and 8 and the growable
vector — for every integer `k ∈ [-7, 7]`, `sqrt2_pow(k)` floating
evaluates (in exact arithmetic, hence within the 1e-6 tolerance) to
`√2 ^ k`; moreover `sqrt2_pow(0) == one()` and `sqrt2_pow(2)` is exactly
the value 2 (`PartialEq`-equal to the coefficient list `[2]`). -/
theorem C4_sqrt2_pow_order4 (T : Coeffs)
    (hT : T = fixedC 4 ∨ T = fixedC 8 ∨ T = vecC) (k : ℤ)
    (_hk : -7 ≤ k ∧ k ≤ 7) :
    float_value (sqrt2_pow T k) = (Real.sqrt 2 : ℂ) ^ k ∧
    scalar_eq (sqrt2_pow T 0) (oneS T) ∧
    scalar_eq (sqrt2_pow T 2) (.Exact [2]) := by
  refine ⟨?_, ?_, ?_⟩
  · rcases hT with rfl | rfl | rfl
    · exact fv_sqrt2_pow _ 1 (by norm_num) (by with_unfolding_all rfl) k
    · exact fv_sqrt2_pow _ 2 (by norm_num) (by with_unfolding_all rfl) k
    · exact fv_sqrt2_pow _ 1 (by norm_num) (by with_unfolding_all rfl) k
  · rcases hT with rfl | rfl | rfl <;>
      exact scalar_eq_of_eqB (by with_unfolding_all rfl)
  · rcases hT with rfl | rfl | rfl <;>
      exact scalar_eq_of_eqB (by with_unfolding_all rfl)

/-- C4 witness: the order-4 fixed array at `k = 1`. -/
theorem C4_witness :
    ((fixedC 4 = fixedC 4 ∨ fixedC 4 = fixedC 8 ∨ fixedC 4 = vecC) ∧
      (-7 ≤ (1 : ℤ) ∧ (1 : ℤ) ≤ 7)) ∧
    (float_value (sqrt2_pow (fixedC 4) 1) = (Real.sqrt 2 : ℂ) ^ (1 : ℤ) ∧
      scalar_eq (sqrt2_pow (fixedC 4) 0) (oneS (fixedC 4)) ∧
      scalar_eq (sqrt2_pow (fixedC 4) 2) (.Exact [2])) :=
  ⟨⟨Or.inl rfl, by decide, by decide⟩,
    C4_sqrt2_pow_order4 (fixedC 4) (Or.inl rfl) 1 ⟨by decide, by decide⟩⟩

/-! ## Claim C8: `from_phase` is a homomorphism of phases -/

theorem newC_std {T : Coeffs} (hT : std_coeffs T) {sz : ℕ} (hsz : 1 ≤ sz)
    {cs : List ℚ} {pad : ℕ} (h : T.newC sz = some (cs, pad)) :
    cs = List.replicate (sz * pad) 0 ∧ 1 ≤ pad := by
  rcases hT with ⟨n, hn, rfl⟩ | rfl
  · simp only [fixedC] at h
    split at h
    · next hc =>
      have hd : sz ∣ n := Nat.dvd_of_mod_eq_zero (by simpa using hc)
      simp only [Option.some.injEq, Prod.mk.injEq] at h
      obtain ⟨hcs, hpad⟩ := h
      constructor
      · rw [← hcs, ← hpad, Nat.mul_div_cancel' hd]
      · rw [← hpad, Nat.one_le_div_iff (by omega)]
        exact Nat.le_of_dvd (by omega) hd
    · exact absurd h (by simp)
  · simp only [vecC, Option.some.injEq, Prod.mk.injEq] at h
    obtain ⟨hcs, hpad⟩ := h
    constructor
    · rw [← hcs, ← hpad, Nat.mul_one]
    · omega

theorem lcm_with_padding_spec (l0 l1 : ℕ) (h0 : 1 ≤ l0) (h1 : 1 ≤ l1) :
    l0 * (lcm_with_padding l0 l1).2.1 = (lcm_with_padding l0 l1).1 ∧
    l1 * (lcm_with_padding l0 l1).2.2 = (lcm_with_padding l0 l1).1 ∧
    1 ≤ (lcm_with_padding l0 l1).1 := by
  unfold lcm_with_padding
  split
  · next h => subst h; refine ⟨by simp, by simp, by omega⟩
  · next h =>
    refine ⟨Nat.mul_div_cancel' (Nat.dvd_lcm_left l0 l1),
      Nat.mul_div_cancel' (Nat.dvd_lcm_right l0 l1), ?_⟩
    have := Nat.lcm_ne_zero (show l0 ≠ 0 by omega) (show l1 ≠ 0 by omega)
    omega

theorem exp_emod_eq (N D : ℤ) (hD : 0 < D) :
    Complex.exp ((Real.pi : ℂ) * Complex.I * (((N % (2 * D) : ℤ) : ℂ) / (D : ℂ)))
      = Complex.exp ((Real.pi : ℂ) * Complex.I * ((N : ℂ) / (D : ℂ))) := by
  have hq : N % (2 * D) = N - 2 * D * (N / (2 * D)) := by
    rw [Int.emod_def]
  set t := N / (2 * D) with ht
  have hDne : (D : ℂ) ≠ 0 := Int.cast_ne_zero.mpr (by omega)
  rw [hq]
  push_cast
  rw [show (Real.pi : ℂ) * Complex.I * (((N : ℂ) - 2 * (D : ℂ) * (t : ℂ)) / (D : ℂ))
      = (Real.pi : ℂ) * Complex.I * ((N : ℂ) / (D : ℂ)) + (-(t : ℂ)) * (2 * (Real.pi : ℂ) * Complex.I) by
    field_simp
    ring]
  rw [Complex.exp_add]
  rw [show (-(t : ℂ)) = (((-t : ℤ) : ℂ)) by push_cast; ring]
  rw [Complex.exp_int_mul_two_pi_mul_I, mul_one]

theorem neg_exp_shift (M D : ℤ) (hD : 0 < D) :
    -Complex.exp ((Real.pi : ℂ) * Complex.I * (((M - D : ℤ) : ℂ) / (D : ℂ)))
      = Complex.exp ((Real.pi : ℂ) * Complex.I * ((M : ℂ) / (D : ℂ))) := by
  have hDne : (D : ℂ) ≠ 0 := Int.cast_ne_zero.mpr (by omega)
  push_cast
  rw [show (Real.pi : ℂ) * Complex.I * (((M : ℂ) - (D : ℂ)) / (D : ℂ))
      = (Real.pi : ℂ) * Complex.I * ((M : ℂ) / (D : ℂ)) - (Real.pi : ℂ) * Complex.I by
    field_simp
    ring]
  rw [Complex.exp_sub, Complex.exp_pi_mul_I]
  field_simp

/-- The `Exact` branch of `from_phase` produces a single signed
coefficient whose floating value is `exp(π·i·p)`. -/
theorem from_phase_exact {T : Coeffs} (hT : std_coeffs T) (p : ℚ)
    {cs : List ℚ} {pad : ℕ} (h : T.newC p.den = some (cs, pad)) :
    ∃ idx : ℕ, ∃ sgn : ℚ, idx < p.den * pad ∧
      from_phase T p = .Exact (upd (List.replicate (p.den * pad) 0) idx (fun _ => sgn)) ∧
      (sgn : ℂ) * omegaN (p.den * pad) ^ idx
        = Complex.exp ((Real.pi : ℂ) * Complex.I * (p : ℂ)) := by
  obtain ⟨hcs, hpad⟩ := newC_std hT p.pos h
  subst hcs
  have hden : 1 ≤ p.den := p.pos
  set D : ℤ := (p.den : ℤ) * (pad : ℤ) with hD
  have hDL : D = ((p.den * pad : ℕ) : ℤ) := by push_cast; ring
  have hD0 : 0 < D := by rw [hDL]; exact_mod_cast Nat.mul_pos (by omega) (by omega)
  set N : ℤ := p.num * (pad : ℤ) with hN
  set M : ℤ := N % (2 * D) with hM
  have hM0 : 0 ≤ M := Int.emod_nonneg N (by omega)
  have hM2 : M < 2 * D := Int.emod_lt_of_pos N (by omega)
  have hDne : (D : ℂ) ≠ 0 := Int.cast_ne_zero.mpr (by omega)
  have hpadne : ((pad : ℕ) : ℂ) ≠ 0 := Nat.cast_ne_zero.mpr (by omega)
  have hdenne : ((p.den : ℕ) : ℂ) ≠ 0 := Nat.cast_ne_zero.mpr (by omega)
  have hND : (N : ℂ) / (D : ℂ) = (p : ℂ) := by
    rw [hN, hD, Rat.cast_def]
    push_cast
    field_simp
    ring
  have hMexp : Complex.exp ((Real.pi : ℂ) * Complex.I * ((M : ℂ) / (D : ℂ)))
      = Complex.exp ((Real.pi : ℂ) * Complex.I * (p : ℂ)) := by
    rw [hM, exp_emod_eq N D hD0, hND]
  by_cases hge : M ≥ D
  · refine ⟨(M - D).toNat, -1, by omega, ?_, ?_⟩
    · unfold from_phase
      rw [h]
      dsimp only
      rw [if_pos hge, if_pos hge]
    · rw [omegaN_pow]
      rw [show (((M - D).toNat : ℕ) : ℂ) = ((M - D : ℤ) : ℂ) by
        rw [← Int.cast_natCast, Int.toNat_of_nonneg (by omega)]]
      rw [show ((p.den * pad : ℕ) : ℂ) = (D : ℂ) by rw [hDL]; push_cast; ring]
      rw [show ((-1 : ℚ) : ℂ) = -1 by push_cast; ring]
      rw [show (-1 : ℂ) * Complex.exp ((Real.pi : ℂ) * Complex.I * (((M - D : ℤ) : ℂ) / (D : ℂ)))
          = -Complex.exp ((Real.pi : ℂ) * Complex.I * (((M - D : ℤ) : ℂ) / (D : ℂ))) by ring]
      rw [neg_exp_shift M D hD0, hMexp]
  · refine ⟨M.toNat, 1, by omega, ?_, ?_⟩
    · unfold from_phase
      rw [h]
      dsimp only
      rw [if_neg hge, if_neg hge]
    · rw [omegaN_pow]
      rw [show ((M.toNat : ℕ) : ℂ) = ((M : ℤ) : ℂ) by
        rw [← Int.cast_natCast, Int.toNat_of_nonneg (by omega)]]
      rw [show ((p.den * pad : ℕ) : ℂ) = (D : ℂ) by rw [hDL]; push_cast; ring]
      rw [show ((1 : ℚ) : ℂ) = 1 by push_cast; ring]
      rw [one_mul, hMexp]

/-- Floating value of `from_phase`: `exp(π·i·p)` in both branches. -/
theorem fv_from_phase (T : Coeffs) (hT : std_coeffs T) (p : ℚ) :
    float_value (from_phase T p)
      = Complex.exp ((Real.pi : ℂ) * Complex.I * (p : ℂ)) := by
  rcases hnew : T.newC p.den with _ | ⟨cs, pad⟩
  · unfold from_phase
    rw [hnew]
    simp only [float_value]
    rw [Complex.cpow_def_of_ne_zero (by norm_num), Complex.log_neg_one]
    congr 1
    rw [show (p : ℂ) = ((p.num : ℂ)) / ((p.den : ℂ)) by rw [Rat.cast_def]]
    push_cast
    ring
  · obtain ⟨idx, sgn, hidx, hshape, hval⟩ := from_phase_exact hT p hnew
    rw [hshape, float_value_upd_single hidx]
    exact hval

theorem foldl_id {α β : Type} {f : α → β → α} {l : List β}
    (h : ∀ a b, b ∈ l → f a b = a) (a : α) : l.foldl f a = a := by
  induction l generalizing a with
  | nil => rfl
  | cons b l ih =>
    rw [List.foldl_cons, h a b (by simp)]
    exact ih (fun a' b' hb' => h a' b' (by simp [hb'])) a

theorem foldl_single {α : Type} {f : α → ℕ → α} {n k : ℕ} (hk : k < n)
    (h : ∀ a b, b ≠ k → f a b = a) (a : α) :
    (List.range n).foldl f a = f a k := by
  rw [List.range_eq_range', show n = (n - k) + k by omega,
    ← List.range'_append_1 0 k (n - k), Nat.zero_add,
    show n - k = (n - k - 1) + 1 by omega, List.range'_succ]
  rw [List.foldl_append, List.foldl_cons]
  rw [foldl_id (fun a' b hb => h a' b (by
    obtain ⟨v, hv, rfl⟩ := List.mem_range'.mp hb
    omega)) a]
  exact foldl_id (fun a' b hb => h a' b (by
    obtain ⟨v, hv, rfl⟩ := List.mem_range'.mp hb
    omega)) _

theorem upd_congr {cs : List ℚ} {k : ℕ} {f : ℚ → ℚ} (h : ∀ x, f x = x) :
    upd cs k f = cs := by
  induction cs generalizing k with
  | nil => rfl
  | cons c cs ih =>
    cases k with
    | zero => rw [upd, h]
    | succ k => rw [upd, ih]

theorem omega_combine {l0 l1 L p0 p1 : ℕ} (h0 : 1 ≤ l0) (h1 : 1 ≤ l1)
    (hp0 : l0 * p0 = L) (hp1 : l1 * p1 = L) (hL1 : 1 ≤ L) (i j : ℕ) :
    omegaN l0 ^ i * omegaN l1 ^ j = omegaN L ^ (i * p0 + j * p1) := by
  rw [omegaN_pow, omegaN_pow, omegaN_pow, ← Complex.exp_add]
  congr 1
  have hl0 : ((l0 : ℕ) : ℂ) ≠ 0 := Nat.cast_ne_zero.mpr (by omega)
  have hl1 : ((l1 : ℕ) : ℂ) ≠ 0 := Nat.cast_ne_zero.mpr (by omega)
  have hL : ((L : ℕ) : ℂ) ≠ 0 := Nat.cast_ne_zero.mpr (by omega)
  have e0 : ((l0 : ℂ)) * (p0 : ℂ) = (L : ℂ) := by exact_mod_cast hp0
  have e1 : ((l1 : ℂ)) * (p1 : ℂ) = (L : ℂ) := by exact_mod_cast hp1
  push_cast
  field_simp
  linear_combination (-(Real.pi * Complex.I * (i : ℂ) * (l1 : ℂ))) * e0
    + (-(Real.pi * Complex.I * (j : ℂ) * (l0 : ℂ))) * e1

theorem neg_exp_shift_nat (P L : ℕ) (hL : 1 ≤ L) (hge : L ≤ P) :
    -Complex.exp ((Real.pi : ℂ) * Complex.I * ((((P - L : ℕ)) : ℂ) / (L : ℂ)))
      = Complex.exp ((Real.pi : ℂ) * Complex.I * ((P : ℂ) / (L : ℂ))) := by
  have hLne : ((L : ℕ) : ℂ) ≠ 0 := Nat.cast_ne_zero.mpr (by omega)
  rw [Nat.cast_sub hge]
  rw [show (Real.pi : ℂ) * Complex.I * (((P : ℂ) - (L : ℂ)) / (L : ℂ))
      = (Real.pi : ℂ) * Complex.I * ((P : ℂ) / (L : ℂ)) - (Real.pi : ℂ) * Complex.I by
    field_simp
    ring]
  rw [Complex.exp_sub, Complex.exp_pi_mul_I]
  field_simp

theorem mulS_degrade (T : Coeffs) (cs0 cs1 : List ℚ)
    (hnone : T.newC (lcm_with_padding cs0.length cs1.length).1 = none) :
    mulS T (.Exact cs0) (.Exact cs1)
      = .Float (float_value (.Exact cs0) * float_value (.Exact cs1)) := by
  unfold mulS
  dsimp only
  rw [hnone]

/-- The product of two single-coefficient `Exact` scalars (when the lcm
order is representable with padding 1, as in every reachable case)
floating-evaluates to the product of the two floating values: the single
convolution contribution lands at position `i·p0 + j·p1`, folded modulo
`ω^L = −1`. -/
theorem mulS_single_single (T : Coeffs) {l0 l1 : ℕ} (h0 : 1 ≤ l0) (h1 : 1 ≤ l1)
    {i j : ℕ} (hi : i < l0) (hj : j < l1) (f g : ℚ → ℚ)
    (hnew : T.newC (lcm_with_padding l0 l1).1
      = some (List.replicate (lcm_with_padding l0 l1).1 0, 1)) :
    float_value (mulS T (.Exact (upd (List.replicate l0 0) i f))
        (.Exact (upd (List.replicate l1 0) j g)))
      = float_value (.Exact (upd (List.replicate l0 0) i f))
        * float_value (.Exact (upd (List.replicate l1 0) j g)) := by
  obtain ⟨hq0, hq1, hL1⟩ := lcm_with_padding_spec l0 l1 h0 h1
  have hcs0 : ∀ i', i' ≠ i → (upd (List.replicate l0 0) i f).getD i' 0 = 0 := fun i' h' => by
    rw [upd_getD_ne h' f, getD_replicate_zero]
  have hcs0i : (upd (List.replicate l0 0) i f).getD i 0 = f 0 := by
    rw [upd_getD_self (by simp [hi]) f, getD_replicate_zero]
  have hcs1 : ∀ j', j' ≠ j → (upd (List.replicate l1 0) j g).getD j' 0 = 0 := fun j' h' => by
    rw [upd_getD_ne h' g, getD_replicate_zero]
  have hcs1j : (upd (List.replicate l1 0) j g).getD j 0 = g 0 := by
    rw [upd_getD_self (by simp [hj]) g, getD_replicate_zero]
  rw [float_value_upd_single hi f, float_value_upd_single hj g]
  unfold mulS
  dsimp only
  rw [show (upd (List.replicate l0 0) i f).length = l0 by rw [upd_length]; simp,
    show (upd (List.replicate l1 0) j g).length = l1 by rw [upd_length]; simp]
  rw [hnew]
  dsimp only
  rcases hlpp : lcm_with_padding l0 l1 with ⟨L, p0, p1⟩
  rw [hlpp] at hq0 hq1 hL1
  dsimp only at hq0 hq1 hL1 ⊢
  simp only [Nat.mul_one]
  have hp0pos : 1 ≤ p0 := by
    rcases Nat.eq_zero_or_pos p0 with h | h
    · rw [h, Nat.mul_zero] at hq0
      omega
    · omega
  have hp1pos : 1 ≤ p1 := by
    rcases Nat.eq_zero_or_pos p1 with h | h
    · rw [h, Nat.mul_zero] at hq1
      omega
    · omega
  have hbi : i * p0 + p0 ≤ L := by
    have h' : (i + 1) * p0 ≤ l0 * p0 := Nat.mul_le_mul_right p0 hi
    rw [Nat.succ_mul, hq0] at h'
    exact h'
  have hbj : j * p1 + p1 ≤ L := by
    have h' : (j + 1) * p1 ≤ l1 * p1 := Nat.mul_le_mul_right p1 hj
    rw [Nat.succ_mul, hq1] at h'
    exact h'
  rw [foldl_single hi ?hout _]
  case hout =>
    intro acc i' hne
    refine foldl_id (fun acc2 j' _ => ?_) acc
    dsimp only
    rw [hcs0 i' hne]
    split
    · exact upd_congr (fun x => by rw [zero_mul, add_zero])
    · exact upd_congr (fun x => by rw [zero_mul, sub_zero])
  try dsimp only
  rw [foldl_single hj ?hin _]
  case hin =>
    intro acc2 j' hne
    dsimp only
    rw [hcs1 j' hne]
    split
    · exact upd_congr (fun x => by rw [mul_zero, add_zero])
    · exact upd_congr (fun x => by rw [mul_zero, sub_zero])
  try dsimp only
  rw [hcs0i, hcs1j]
  have hPlt : i * p0 + j * p1 < 2 * L := by omega
  rw [Nat.mod_eq_of_lt hPlt]
  by_cases hc : i * p0 + j * p1 < L
  · rw [if_pos hc, float_value_upd_single hc _]
    rw [show (f 0 : ℂ) * omegaN l0 ^ i * ((g 0 : ℂ) * omegaN l1 ^ j)
        = ((f 0 : ℂ) * (g 0 : ℂ)) * (omegaN l0 ^ i * omegaN l1 ^ j) by ring,
      omega_combine h0 h1 hq0 hq1 hL1 i j]
    push_cast
    ring
  · rw [if_neg hc, float_value_upd_single (show i * p0 + j * p1 - L < L by omega) _]
    rw [show (f 0 : ℂ) * omegaN l0 ^ i * ((g 0 : ℂ) * omegaN l1 ^ j)
        = ((f 0 : ℂ) * (g 0 : ℂ)) * (omegaN l0 ^ i * omegaN l1 ^ j) by ring,
      omega_combine h0 h1 hq0 hq1 hL1 i j]
    rw [omegaN_pow, omegaN_pow]
    rw [← neg_exp_shift_nat (i * p0 + j * p1) L hL1 (by omega)]
    push_cast
    ring

/-- C8.  For every pair of rational phases and every provided coefficient
representation (all fixed-size orders and the growable vector),
`from_phase(p) * from_phase(q)` equals `from_phase(p+q)` up to the
approximate-equality tolerance (1e-6 on each of the real and imaginary
parts of the floating evaluations); in the exact-arithmetic model the
floating evaluations coincide exactly. -/
theorem C8_from_phase_homomorphism (T : Coeffs) (hT : std_coeffs T) (p q : ℚ) :
    |(float_value (mulS T (from_phase T p) (from_phase T q))
        - float_value (from_phase T (p + q))).re| ≤ 1e-6 ∧
    |(float_value (mulS T (from_phase T p) (from_phase T q))
        - float_value (from_phase T (p + q))).im| ≤ 1e-6 := by
  have hmul : float_value (mulS T (from_phase T p) (from_phase T q))
      = float_value (from_phase T p) * float_value (from_phase T q) := by
    rcases hp : T.newC p.den with _ | ⟨cs0, pad0⟩
    · have e1 : from_phase T p
          = .Float ((-1 : ℂ) ^ ((((p.num : ℝ) / (p.den : ℝ)) : ℝ) : ℂ)) := by
        unfold from_phase
        rw [hp]
      rcases hq2 : T.newC q.den with _ | ⟨cs1, pad1⟩
      · have e2 : from_phase T q
            = .Float ((-1 : ℂ) ^ ((((q.num : ℝ) / (q.den : ℝ)) : ℝ) : ℂ)) := by
          unfold from_phase
          rw [hq2]
        rw [e1, e2]
        rfl
      · obtain ⟨idx1, sgn1, hidx1, hshape1, _⟩ := from_phase_exact hT q hq2
        rw [e1, hshape1]
        rfl
    · obtain ⟨idx0, sgn0, hidx0, hshape0, _⟩ := from_phase_exact hT p hp
      obtain ⟨_, hpad0⟩ := newC_std hT p.pos hp
      rcases hq2 : T.newC q.den with _ | ⟨cs1, pad1⟩
      · have e2 : from_phase T q
            = .Float ((-1 : ℂ) ^ ((((q.num : ℝ) / (q.den : ℝ)) : ℝ) : ℂ)) := by
          unfold from_phase
          rw [hq2]
        rw [hshape0, e2]
        rfl
      · obtain ⟨idx1, sgn1, hidx1, hshape1, _⟩ := from_phase_exact hT q hq2
        obtain ⟨_, hpad1⟩ := newC_std hT q.pos hq2
        rw [hshape0, hshape1]
        have hdp : 1 ≤ p.den := p.pos
        have hdq : 1 ≤ q.den := q.pos
        rcases hT with ⟨n, hn, rfl⟩ | rfl
        · -- fixed-size array: both physical lengths are n
          have hpd : p.den * pad0 = n := by
            simp only [fixedC] at hp
            split at hp
            · next hc =>
              simp only [Option.some.injEq, Prod.mk.injEq] at hp
              rw [← hp.2]
              exact Nat.mul_div_cancel' (Nat.dvd_of_mod_eq_zero (by simpa using hc))
            · exact absurd hp (by simp)
          have hqd : q.den * pad1 = n := by
            simp only [fixedC] at hq2
            split at hq2
            · next hc =>
              simp only [Option.some.injEq, Prod.mk.injEq] at hq2
              rw [← hq2.2]
              exact Nat.mul_div_cancel' (Nat.dvd_of_mod_eq_zero (by simpa using hc))
            · exact absurd hq2 (by simp)
          rw [hpd, hqd]
          have hlcm : lcm_with_padding n n = (n, 1, 1) := by
            unfold lcm_with_padding
            rw [if_pos rfl]
          refine mulS_single_single (fixedC n) (by omega) (by omega)
            (hpd ▸ hidx0) (hqd ▸ hidx1) _ _ ?_
          rw [hlcm]
          simp only [fixedC, Nat.mod_self]
          rw [if_pos (by simp)]
          rw [Nat.div_self (by omega)]
        · -- growable vector
          have hp1 : pad0 = 1 := by
            simp only [vecC, Option.some.injEq, Prod.mk.injEq] at hp
            omega
          have hq1 : pad1 = 1 := by
            simp only [vecC, Option.some.injEq, Prod.mk.injEq] at hq2
            omega
          refine mulS_single_single vecC
            (by omega) (by omega) hidx0 hidx1 _ _ ?_
          rfl
  have hsum : float_value (from_phase T p) * float_value (from_phase T q)
      = float_value (from_phase T (p + q)) := by
    rw [fv_from_phase T hT p, fv_from_phase T hT q, fv_from_phase T hT (p + q),
      ← Complex.exp_add]
    congr 1
    push_cast
    ring
  rw [hmul, hsum, sub_self]
  norm_num

/-- C8 witness: the growable-vector representation at `p = q = 1/2`. -/
theorem C8_witness :
    std_coeffs vecC ∧
    (|(float_value (mulS vecC (from_phase vecC (1/2)) (from_phase vecC (1/2)))
        - float_value (from_phase vecC ((1:ℚ)/2 + 1/2))).re| ≤ 1e-6 ∧
     |(float_value (mulS vecC (from_phase vecC (1/2)) (from_phase vecC (1/2)))
        - float_value (from_phase vecC ((1:ℚ)/2 + 1/2))).im| ≤ 1e-6) :=
  ⟨Or.inr rfl, C8_from_phase_homomorphism vecC (Or.inr rfl) (1/2) (1/2)⟩

/-! ## `hadamard_at` as an involution up to sign: machinery for C6/C7 -/

theorem addS4 (a b c d e f g h : ℚ) :
    addS (fixedC 4) (.Exact [a,b,c,d]) (.Exact [e,f,g,h])
      = .Exact [a+e, b+f, c+g, d+h] := by
  have hr4 : List.range 4 = [0,1,2,3] := by decide
  simp only [addS, lcm_with_padding, fixedC, List.length_cons, List.length_nil]
  norm_num [hr4, upd, List.replicate]

theorem mulS4 (a b c d e f g h : ℚ) :
    mulS (fixedC 4) (.Exact [a,b,c,d]) (.Exact [e,f,g,h])
      = .Exact [a*e - b*h - c*g - d*f, a*f + b*e - c*h - d*g,
          a*g + b*f + c*e - d*h, a*h + b*g + c*f + d*e] := by
  have hr4 : List.range 4 = [0,1,2,3] := by decide
  simp only [mulS, lcm_with_padding, fixedC, List.length_cons, List.length_nil]
  norm_num [hr4, upd, List.replicate]

/-- Applying the `hadamard_at` entry transformation twice to a pair of
order-4 `Exact` scalars returns the pair: the scalar-level core of the
`H² = id` argument. -/
theorem had2_pair (x y : Scalar) (hx : wf4 x) (hy : wf4 y) :
    mulS (fixedC 4) (sqrt2_pow (fixedC 4) (-1))
        (addS (fixedC 4)
          (mulS (fixedC 4) (sqrt2_pow (fixedC 4) (-1)) (addS (fixedC 4) x y))
          (mulS (fixedC 4) (sqrt2_pow (fixedC 4) (-1))
            (addS (fixedC 4) x (mulS (fixedC 4) (from_phase (fixedC 4) 1) y)))) = x ∧
    mulS (fixedC 4) (sqrt2_pow (fixedC 4) (-1))
        (addS (fixedC 4)
          (mulS (fixedC 4) (sqrt2_pow (fixedC 4) (-1)) (addS (fixedC 4) x y))
          (mulS (fixedC 4) (from_phase (fixedC 4) 1)
            (mulS (fixedC 4) (sqrt2_pow (fixedC 4) (-1))
              (addS (fixedC 4) x (mulS (fixedC 4) (from_phase (fixedC 4) 1) y))))) = y := by
  have hn : sqrt2_pow (fixedC 4) (-1) = .Exact [0, 1/2, 0, -(1/2)] := by
    with_unfolding_all rfl
  have hm : from_phase (fixedC 4) 1 = .Exact [-1, 0, 0, 0] := by
    with_unfolding_all rfl
  rcases x with cs | c
  on_goal 2 => exact absurd hx (by simp [wf4])
  rcases cs with _ | ⟨a, cs⟩; · simp [wf4] at hx
  rcases cs with _ | ⟨b, cs⟩; · simp [wf4] at hx
  rcases cs with _ | ⟨c, cs⟩; · simp [wf4] at hx
  rcases cs with _ | ⟨d, cs⟩; · simp [wf4] at hx
  rcases cs with _ | ⟨a5, cs⟩
  on_goal 2 => simp [wf4] at hx
  rcases y with cs | c2
  on_goal 2 => exact absurd hy (by simp [wf4])
  rcases cs with _ | ⟨e, cs⟩; · simp [wf4] at hy
  rcases cs with _ | ⟨f, cs⟩; · simp [wf4] at hy
  rcases cs with _ | ⟨g, cs⟩; · simp [wf4] at hy
  rcases cs with _ | ⟨h, cs⟩; · simp [wf4] at hy
  rcases cs with _ | ⟨e5, cs⟩
  on_goal 2 => simp [wf4] at hy
  rw [hn, hm]
  simp only [mulS4, addS4]
  constructor
  · norm_num
    refine ⟨by ring, by ring, by ring, by ring⟩
  · norm_num
    refine ⟨by ring, by ring, by ring, by ring⟩

/-- The `hadamard_at` entry formula at an index whose `q`-th component
is 0 (the `n·(a+b)` branch). -/
theorem had_data0 (t1 : Tensor) (q : ℕ) (jx : List ℕ) (h : jx.getD q 0 = 0) :
    (hadamard_at (fixedC 4) t1 q).data jx
      = mulS (fixedC 4) (sqrt2_pow (fixedC 4) (-1))
          (addS (fixedC 4) (t1.data (jx.set q 0)) (t1.data (jx.set q 1))) := by
  simp only [hadamard_at]
  rw [h]
  simp

/-- The `hadamard_at` entry formula at an index whose `q`-th component
is nonzero (the `n·(a + minus·b)` branch). -/
theorem had_data1 (t1 : Tensor) (q : ℕ) (jx : List ℕ) (h : jx.getD q 0 ≠ 0) :
    (hadamard_at (fixedC 4) t1 q).data jx
      = mulS (fixedC 4) (sqrt2_pow (fixedC 4) (-1))
          (addS (fixedC 4) (t1.data (jx.set q 0))
            (mulS (fixedC 4) (from_phase (fixedC 4) 1) (t1.data (jx.set q 1)))) := by
  simp only [hadamard_at]
  rw [show (jx.getD q 0 == 0) = false from beq_eq_false_iff_ne.mpr h]
  simp

theorem wf4_elim (x : Scalar) (hx : wf4 x) : ∃ a b c d : ℚ, x = .Exact [a, b, c, d] := by
  rcases x with cs | c
  · rcases cs with _ | ⟨a, cs⟩; · exact absurd hx (by simp [wf4])
    rcases cs with _ | ⟨b, cs⟩; · exact absurd hx (by simp [wf4])
    rcases cs with _ | ⟨c1, cs⟩; · exact absurd hx (by simp [wf4])
    rcases cs with _ | ⟨d, cs⟩; · exact absurd hx (by simp [wf4])
    rcases cs with _ | ⟨e, cs⟩
    · exact ⟨a, b, c1, d, rfl⟩
    · exact absurd hx (by simp [wf4])
  · exact absurd hx (by simp [wf4])

theorem wf4_addS {x y : Scalar} (hx : wf4 x) (hy : wf4 y) :
    wf4 (addS (fixedC 4) x y) := by
  obtain ⟨a, b, c, d, rfl⟩ := wf4_elim x hx
  obtain ⟨e, f, g, h, rfl⟩ := wf4_elim y hy
  rw [addS4]
  rfl

theorem wf4_mulS {x y : Scalar} (hx : wf4 x) (hy : wf4 y) :
    wf4 (mulS (fixedC 4) x y) := by
  obtain ⟨a, b, c, d, rfl⟩ := wf4_elim x hx
  obtain ⟨e, f, g, h, rfl⟩ := wf4_elim y hy
  rw [mulS4]
  rfl

theorem wf4_sqrt2_neg_one : wf4 (sqrt2_pow (fixedC 4) (-1)) := by
  have h : sqrt2_pow (fixedC 4) (-1) = .Exact [0, 1/2, 0, -(1/2)] := by
    with_unfolding_all rfl
  rw [h]
  rfl

theorem wf4_minus_one : wf4 (from_phase (fixedC 4) 1) := by
  have h : from_phase (fixedC 4) 1 = .Exact [-1, 0, 0, 0] := by
    with_unfolding_all rfl
  rw [h]
  rfl

/-- `hadamard_at` preserves well-formedness of order-4 `Exact` entries. -/
theorem wf4_hadamard (t : Tensor) (q : ℕ) (hwf : ∀ ix, wf4 (t.data ix)) (ix : List ℕ) :
    wf4 ((hadamard_at (fixedC 4) t q).data ix) := by
  rcases eq_or_ne (ix.getD q 0) 0 with h | h
  · rw [had_data0 t q ix h]
    exact wf4_mulS wf4_sqrt2_neg_one (wf4_addS (hwf _) (hwf _))
  · rw [had_data1 t q ix h]
    exact wf4_mulS wf4_sqrt2_neg_one (wf4_addS (hwf _) (wf4_mulS wf4_minus_one (hwf _)))

theorem set_getD_eq {ix : List ℕ} {q v : ℕ} (hq : q < ix.length) (hv : ix.getD q 0 = v) :
    ix.set q v = ix := by
  apply List.ext_getElem
  · simp
  · intro i h1 h2
    rw [List.getElem_set]
    split
    · next heq => subst heq; rw [← hv]; exact getD_of_lt hq
    · rfl

/-- An index drawn from `all_ix shape` has the length of the shape and
stays below the shape bound in every coordinate. -/
theorem mem_all_ix {shape : List ℕ} : ∀ {ix : List ℕ}, ix ∈ all_ix shape →
    ix.length = shape.length ∧ ∀ k, k < shape.length → ix.getD k 0 < shape.getD k 0 := by
  induction shape with
  | nil =>
    intro ix h
    simp only [all_ix, List.mem_singleton] at h
    subst h
    exact ⟨rfl, fun k hk => absurd hk (by simp)⟩
  | cons s rest ih =>
    intro ix h
    simp only [all_ix, List.mem_flatMap, List.mem_map] at h
    obtain ⟨v, hv, ix', hix', rfl⟩ := h
    obtain ⟨hlen, hlt⟩ := ih hix'
    refine ⟨by simp [hlen], ?_⟩
    intro k hk
    cases k with
    | zero => simpa using List.mem_range.mp hv
    | succ k => simpa using hlt k (by simpa using hk)

theorem eqB_refl (cs : List ℚ) : eqB cs cs = true := by
  have h : lcm_with_padding cs.length cs.length = (cs.length, 1, 1) := by
    unfold lcm_with_padding
    rw [if_pos rfl]
  unfold eqB
  rw [h]
  rw [List.all_eq_true]
  intro i hi
  exact beq_self_eq_true _

theorem scalar_eq_refl (x : Scalar) : scalar_eq x x := by
  cases x with
  | Exact cs => exact scalar_eq_of_eqB (eqB_refl cs)
  | Float c => exact rfl

/-- Applying `hadamard_at` twice leaves every in-range entry of a tensor
of well-formed order-4 `Exact` scalars unchanged. -/
theorem had2_data (t : Tensor) (q : ℕ) (hwf : ∀ ix, wf4 (t.data ix))
    (ix : List ℕ) (hqlen : q < ix.length) (hq2 : ix.getD q 0 < 2) :
    (hadamard_at (fixedC 4) (hadamard_at (fixedC 4) t q) q).data ix = t.data ix := by
  have hg0 : (ix.set q 0).getD q 0 = 0 := getD_set_self hqlen
  have hg1 : (ix.set q 1).getD q 0 = 1 := getD_set_self hqlen
  have hs00 : (ix.set q 0).set q 0 = ix.set q 0 := by rw [List.set_set]
  have hs01 : (ix.set q 0).set q 1 = ix.set q 1 := by rw [List.set_set]
  have hs10 : (ix.set q 1).set q 0 = ix.set q 0 := by rw [List.set_set]
  have hs11 : (ix.set q 1).set q 1 = ix.set q 1 := by rw [List.set_set]
  have hd0 := had_data0 t q (ix.set q 0) hg0
  have hd1 := had_data1 t q (ix.set q 1) (by rw [hg1]; exact one_ne_zero)
  rw [hs00, hs01] at hd0
  rw [hs10, hs11] at hd1
  rcases show ix.getD q 0 = 0 ∨ ix.getD q 0 = 1 from by omega with h | h
  · rw [had_data0 (hadamard_at (fixedC 4) t q) q ix h, hd0, hd1]
    have hix : ix.set q 0 = ix := set_getD_eq hqlen h
    conv_rhs => rw [← hix]
    exact (had2_pair (t.data (ix.set q 0)) (t.data (ix.set q 1)) (hwf _) (hwf _)).1
  · rw [had_data1 (hadamard_at (fixedC 4) t q) q ix (by omega), hd0, hd1]
    have hix : ix.set q 1 = ix := set_getD_eq hqlen h
    conv_rhs => rw [← hix]
    exact (had2_pair (t.data (ix.set q 0)) (t.data (ix.set q 1)) (hwf _) (hwf _)).2

/-! ## C6 and C7 -/

set_option maxRecDepth 100000 in
/-- C6: the 2-qubit circuits `[CNOT(0,1), CNOT(1,0), CNOT(0,1)]` and
`[SWAP(0,1)]` produce `ndarray`-equal tensors under
`Circuit::to_tensor4`.  Confirmed by evaluating all 16 entries of
both 4-axis tensors. -/
theorem C6_cnot_three_equals_swap :
    tensor_eq
      (circuit_to_tensor (fixedC 4) 2
        [⟨.CNOT, [0, 1], 0⟩, ⟨.CNOT, [1, 0], 0⟩, ⟨.CNOT, [0, 1], 0⟩])
      (circuit_to_tensor (fixedC 4) 2 [⟨.SWAP, [0, 1], 0⟩]) := by
  constructor
  · rfl
  · intro ix hix
    fin_cases hix <;> exact scalar_eq_of_eqB (by with_unfolding_all rfl)

/-- C7 counterexample: the claim fails for a tensor that holds a `Float`
entry.  Four applications of `hadamard_at` to
`array![Scalar4::one(), Scalar4::complex(0,0)]` turn every entry into a
`Float`, and `PartialEq` never equates a `Float` with the original
`Exact` entry — so even with exact complex arithmetic the result is not
`==` to the original tensor (with `f64` rounding it is farther still). -/
theorem C7_counterexample :
    ¬ tensor_eq
        (hadamard_at (fixedC 4) (hadamard_at (fixedC 4) (hadamard_at (fixedC 4)
          (hadamard_at (fixedC 4) mixed_tensor 0) 0) 0) 0)
        mixed_tensor := by
  intro h
  exact h.2 [0] (by decide)

/-- C7 (amended): for every tensor all of whose axes have length 2 and
all of whose entries are well-formed `Exact` order-4 scalars, and every
valid axis `q`, applying `hadamard_at(q)` four times returns a tensor
`ndarray`-equal to the original.  (The original claim, quantified over
arbitrary `Scalar4` tensors, is false: entries in the `Float`
representation break it — see the counterexample.) -/
theorem C7_hadamard_fourth_power (t : Tensor) (q : ℕ) (hq : q < t.shape.length)
    (hwf : ∀ ix, wf4 (t.data ix)) (hsh : ∀ s ∈ t.shape, s = 2) :
    tensor_eq
      (hadamard_at (fixedC 4) (hadamard_at (fixedC 4) (hadamard_at (fixedC 4)
        (hadamard_at (fixedC 4) t q) q) q) q)
      t := by
  constructor
  · rfl
  · intro ix hix
    have hix' : ix ∈ all_ix t.shape := hix
    obtain ⟨hlen, hlt⟩ := mem_all_ix hix'
    have hqlen : q < ix.length := by rw [hlen]; exact hq
    have hq2 : ix.getD q 0 < 2 := by
      have h1 := hlt q hq
      have h2 : t.shape.getD q 0 = 2 := by
        rw [getD_of_lt hq]
        exact hsh _ (List.getElem_mem hq)
      omega
    have hwf2 : ∀ jx, wf4 ((hadamard_at (fixedC 4) (hadamard_at (fixedC 4) t q) q).data jx) :=
      wf4_hadamard _ q (wf4_hadamard t q hwf)
    have e1 := had2_data (hadamard_at (fixedC 4) (hadamard_at (fixedC 4) t q) q) q hwf2
      ix hqlen hq2
    have e2 := had2_data t q hwf ix hqlen hq2
    rw [e1, e2]
    exact scalar_eq_refl _

/-- Witness for C7 (amended) at the all-ones one-axis tensor with axis 0. -/
theorem C7_witness :
    0 < ones_tensor.shape.length ∧ (∀ ix, wf4 (ones_tensor.data ix)) ∧
    (∀ s ∈ ones_tensor.shape, s = 2) ∧
    tensor_eq
      (hadamard_at (fixedC 4) (hadamard_at (fixedC 4) (hadamard_at (fixedC 4)
        (hadamard_at (fixedC 4) ones_tensor 0) 0) 0) 0)
      ones_tensor :=
  ⟨by decide, fun ix => rfl, by decide,
    C7_hadamard_fourth_power ones_tensor 0 (by decide) (fun ix => rfl) (by decide)⟩

/-- Witness for C9 (amended) at the 2×2 identity with rows 0 and 1. -/
theorem C9_witness :
    (0 : ℕ) ≠ 1 ∧
    Mat2.row_add (Mat2.row_add [[1, 0], [0, 1]] 0 1) 0 1 = [[1, 0], [0, 1]] ∧
    Mat2.row_swap (Mat2.row_swap [[1, 0], [0, 1]] 0 1) 0 1 = [[1, 0], [0, 1]] :=
  ⟨by decide,
    C9_row_ops_involutive [[1, 0], [0, 1]] 0 1 (by decide) (by decide) (by decide)
      (by decide) (by decide)⟩

end Quizx
